import Mathlib

/-!
Shallow embedding of `src/main.py` (class TwitterTokenScraper), a linear
pipeline: fetch list members, fetch each member's recent tweets, extract
dollar-prefixed token mentions with a regex, accumulate records, write a CSV.

Text is modelled as `List Char` (Python `str` indexes code points).  The
regex `\$([A-Z]{3,10})\b` is modelled by an explicit scanner; Python's `\w`
is modelled over ASCII (letters, digits, underscore), which covers every
character class the pattern itself can consume.
-/

namespace Dexscraper

/-- ASCII uppercase A-Z, the character class `[A-Z]` of the regex. -/
def isUpperAZ (c : Char) : Bool := decide ('A' ≤ c) && decide (c ≤ 'Z')

/-- ASCII lowercase a-z. -/
def isLowerAZ (c : Char) : Bool := decide ('a' ≤ c) && decide (c ≤ 'z')

/-- ASCII digit 0-9. -/
def isDigit09 (c : Char) : Bool := decide ('0' ≤ c) && decide (c ≤ '9')

/-- Python regex `\w` (word character), ASCII fragment. -/
def isWordChar (c : Char) : Bool := isUpperAZ c || isLowerAZ c || isDigit09 c || c == '_'

/-- Whitespace stripped by Python `str.strip()` (ASCII fragment). -/
def isSpaceChar (c : Char) : Bool :=
  c == ' ' || c == '\t' || c == '\n' || c == '\x0d' || c == '\x0b' || c == '\x0c'

/-- Python `s.strip()`: drop leading and trailing whitespace. -/
def trimList (l : List Char) : List Char :=
  ((l.dropWhile isSpaceChar).reverse.dropWhile isSpaceChar).reverse

/-- Python slice `text[a:b]` for `0 ≤ a ≤ b` (clipped at the ends). -/
def sliceList (text : List Char) (a b : Nat) : List Char := (text.drop a).take (b - a)

/-- Length of the maximal uppercase run at the head of the list. -/
def upperRunLen : List Char → Nat
  | [] => 0
  | c :: cs => if isUpperAZ c then upperRunLen cs + 1 else 0

/-- True when position `i` is past the end of `text` or holds a non-word
character: the condition the regex word boundary `\b` imposes after the
final captured letter. -/
def notWordAt (text : List Char) (i : Nat) : Bool :=
  match text[i]? with
  | none => true
  | some c => !isWordChar c

/-- Declarative description of the pattern `\$([A-Z]{3,10})\b` succeeding at
position `j` with a captured group of length `r`: a dollar sign at `j`,
exactly `r` (with `3 ≤ r ≤ 10`) uppercase letters after it, and no word
character immediately after them. -/
def isMatchAt (text : List Char) (j r : Nat) : Bool :=
  decide (3 ≤ r) && decide (r ≤ 10) &&
  (text[j]? == some '$') &&
  decide ((sliceList text (j + 1) (j + 1 + r)).length = r) &&
  (sliceList text (j + 1) (j + 1 + r)).all isUpperAZ &&
  notWordAt text (j + 1 + r)

/-- One step per scan position of `re.finditer`: at a dollar sign whose
following uppercase run `r` satisfies the pattern, record `(position, r)`
and resume after the match; otherwise advance one character.  `fuel` bounds
the number of positions still scannable. -/
def scanFrom (text : List Char) : Nat → Nat → List (Nat × Nat)
  | 0, _ => []
  | fuel + 1, i =>
    if h : i < text.length then
      if text.get ⟨i, h⟩ = '$' then
        if 3 ≤ upperRunLen (text.drop (i + 1)) ∧ upperRunLen (text.drop (i + 1)) ≤ 10 ∧
            notWordAt text (i + 1 + upperRunLen (text.drop (i + 1))) = true then
          (i, upperRunLen (text.drop (i + 1))) ::
            scanFrom text fuel (i + 1 + upperRunLen (text.drop (i + 1)))
        else scanFrom text fuel (i + 1)
      else scanFrom text fuel (i + 1)
    else []

/-- All matches of `re.finditer(token_pattern, text)` as
(start position, captured-group length) pairs, in order. -/
def findMatches (text : List Char) : List (Nat × Nat) := scanFrom text text.length 0

/-- One element of the list returned by `extract_token_mentions`:
the dict with keys token and context. -/
structure Mention where
  token : List Char
  context : List Char
deriving DecidableEq

/-- Build the mention dict for a match `(j, r)`: the captured group is
`text[j+1 : j+1+r]`, the context is `text[max(0, j-100) : min(len, j+1+r+100)].strip()`
(`j + 1 + r` is `match.end()`). -/
def mkMention (text : List Char) (m : Nat × Nat) : Mention :=
  { token := sliceList text (m.1 + 1) (m.1 + 1 + m.2)
  , context := trimList (sliceList text (m.1 - 100) (min text.length (m.1 + 1 + m.2 + 100))) }

/-- `TwitterTokenScraper.extract_token_mentions` (src/main.py lines 61-88). -/
def extract_token_mentions (text : List Char) : List Mention :=
  (findMatches text).map (mkMention text)

/-- Severity of a log line. -/
inductive LogLevel
  | info
  | warning
  | error
deriving DecidableEq

/-- The log messages the scraper can emit (message text abstracted to its
identity; the f-string arguments are carried as fields). -/
inductive LogMsg
  | errorFetchingListMembers
  | errorFetchingTweets (user_id : String)
  | infoScrapingUser (user_id : String)
  | infoSaved (output_file : String)
  | warningNoMentions
deriving DecidableEq

/-- Severity each message is logged at in the source. -/
def LogMsg.level : LogMsg → LogLevel
  | .errorFetchingListMembers => .error
  | .errorFetchingTweets _ => .error
  | .infoScrapingUser _ => .info
  | .infoSaved _ => .info
  | .warningNoMentions => .warning

/-- Python exceptions that are not `requests.RequestException` and hence
escape the `try` blocks: here only `KeyError` from a missing dict key. -/
inductive PyError
  | keyError (key : String)
deriving DecidableEq

/-- Outcome of `requests.get` followed by `raise_for_status`: either a
parsed JSON body, or a `requests.RequestException` (transport fault or
non-2xx status, which the source treats uniformly). -/
inductive ApiResult (α : Type)
  | ok (body : α)
  | requestError
deriving DecidableEq

/-- A member object of the list-members response; `id` may be absent. -/
structure MemberObj where
  idOpt : Option String
deriving DecidableEq

/-- Parsed JSON body of the list-members response; the top-level data
field may be absent (`.get('data', [])`). -/
structure MembersBody where
  data : Option (List MemberObj)
deriving DecidableEq

/-- A tweet object of the user-tweets response; each field may be absent. -/
structure TweetObj where
  textOpt : Option String
  idOpt : Option String
  createdAtOpt : Option String
deriving DecidableEq

/-- Parsed JSON body of the user-tweets response. -/
structure TweetsBody where
  data : Option (List TweetObj)
deriving DecidableEq

/-- One row of the output: the dict appended to `token_tweets`
(src/main.py lines 122-128), keys in insertion order. -/
structure MentionRecord where
  user_id : String
  tweet_id : String
  created_at : String
  token : List Char
  narrative : List Char
deriving DecidableEq

/-- The upstream responses of one run: one list-members response and one
user-tweets response per user id ("identical upstream API responses" means
equal `Env`s). -/
structure Env where
  membersResp : ApiResult MembersBody
  tweetsResp : String → ApiResult TweetsBody

/-- `member['id']`: a `KeyError` when the key is absent. -/
def getMemberId (m : MemberObj) : Except PyError String :=
  match m.idOpt with
  | some i => .ok i
  | none => .error (.keyError "id")

/-- `TwitterTokenScraper.get_list_members` (src/main.py lines 42-59).
Returns the Python result (or the uncaught exception) together with the
log lines written.  A `RequestException` is caught and turned into `[]`
with an error log; a `KeyError` from a member dict propagates. -/
def get_list_members (resp : ApiResult MembersBody) :
    Except PyError (List String) × List LogMsg :=
  match resp with
  | .requestError => (.ok [], [.errorFetchingListMembers])
  | .ok body => ((body.data.getD []).mapM getMemberId, [])

/-- The query parameters of the user-tweets request.  `start_time` is
`now - days` in seconds (`datetime.utcnow() - timedelta(days=days)`),
the only place the wall clock enters the pipeline. -/
structure TweetRequest where
  user_id : String
  max_results : Nat
  fields : List String
  start_time : Int
deriving DecidableEq

/-- Build the request of `get_user_tweets` from the current time. -/
def mkTweetRequest (now : Int) (user_id : String) (days : Nat) : TweetRequest :=
  { user_id := user_id
  , max_results := 100
  , fields := ["created_at", "text"]
  , start_time := now - days * 86400 }

/-- The loop body for one tweet (src/main.py lines 117-128): read
`tweet['text']` (KeyError when absent), extract mentions, and only when at
least one mention exists read `tweet['id']` and `tweet['created_at']`
(in that order, per dict-literal evaluation) while building one record per
mention. -/
def recordsOfTweet (user_id : String) (t : TweetObj) :
    Except PyError (List MentionRecord) :=
  match t.textOpt with
  | none => .error (.keyError "text")
  | some txt =>
    (extract_token_mentions txt.data).mapM fun m =>
      match t.idOpt with
      | none => .error (.keyError "id")
      | some tid =>
        match t.createdAtOpt with
        | none => .error (.keyError "created_at")
        | some ca =>
          .ok { user_id := user_id, tweet_id := tid, created_at := ca
              , token := m.token, narrative := m.context }

/-- `TwitterTokenScraper.get_user_tweets` (src/main.py lines 90-134).
Returns the request issued, the Python result (or uncaught exception), and
the log lines.  A `RequestException` is caught and becomes `[]` plus an
error log; a `KeyError` inside the loop propagates. -/
def get_user_tweets (now : Int) (env : Env) (user_id : String) (days : Nat) :
    TweetRequest × Except PyError (List MentionRecord) × List LogMsg :=
  let req := mkTweetRequest now user_id days
  match env.tweetsResp user_id with
  | .requestError => (req, .ok [], [.errorFetchingTweets user_id])
  | .ok body =>
    (req, (((body.data.getD []).mapM (recordsOfTweet user_id)).map List.flatten), [])

/-- Keys of a record dict, in insertion order (`record.keys()`). -/
def keysOf (_ : MentionRecord) : List String :=
  ["user_id", "tweet_id", "created_at", "token", "narrative"]

/-- The values of a record in key order, as written by
`csv.DictWriter.writerows`. -/
def recordFields (r : MentionRecord) : List (List Char) :=
  [r.user_id.data, r.tweet_id.data, r.created_at.data, r.token, r.narrative]

/-- `csv` QUOTE_MINIMAL: a field needs quoting when it contains the
delimiter, the quote character, or a CR or LF. -/
def needsQuote (s : List Char) : Bool :=
  s.any fun c => c == ',' || c == '"' || c == '\n' || c == '\x0d'

/-- Quote one CSV field when needed, doubling interior quote characters. -/
def csvQuote (s : List Char) : List Char :=
  if needsQuote s then
    '"' :: (s.map fun c => if c == '"' then ['"', '"'] else [c]).flatten ++ ['"']
  else s

/-- One CSV row: quoted fields joined by commas, CRLF-terminated
(the `csv` module's default line terminator). -/
def csvRow (fields : List (List Char)) : List Char :=
  List.intercalate [','] (fields.map csvQuote) ++ ['\x0d', '\n']

/-- The full file content written by `csv.DictWriter` for a non-empty
record list: header row from the first record's keys, then one row per
record.  Opening with mode w truncates, so this is the complete final
content of the file. -/
def writeCsv (records : List MentionRecord) : List Char :=
  match records with
  | [] => []
  | r0 :: _ =>
    csvRow ((keysOf r0).map String.data) ++
      (records.map fun r => csvRow (recordFields r)).flatten

/-- The per-member loop of `scrape_list_tokens` (src/main.py lines
149-156): for each user id, log the info line, (sleep,) fetch the user's
tweets, and extend the accumulator.  Returns the requests issued, the log
lines, and the accumulated records or the first uncaught exception. -/
def runUsers (now : Int) (env : Env) :
    List String → List TweetRequest × List LogMsg × Except PyError (List MentionRecord)
  | [] => ([], [], .ok [])
  | u :: us =>
    match get_user_tweets now env u 7 with
    | (req, .error e, lg) => ([req], .infoScrapingUser u :: lg, .error e)
    | (req, .ok recs, lg) =>
      match runUsers now env us with
      | (reqs, lgs, rest) =>
        (req :: reqs, (.infoScrapingUser u :: lg) ++ lgs, rest.map fun more => recs ++ more)

/-- Observable outcome of one `scrape_list_tokens` run: the tweet requests
issued, the accumulator (or the uncaught exception that aborted the run),
the output-file content (`none` when no write happened), and the log. -/
structure RunResult where
  requests : List TweetRequest
  records : Except PyError (List MentionRecord)
  output : Option (List Char)
  logs : List LogMsg

/-- `TwitterTokenScraper.scrape_list_tokens` (src/main.py lines 136-168). -/
def scrape_list_tokens (now : Int) (env : Env) (output_file : String) : RunResult :=
  match get_list_members env.membersResp with
  | (.error e, lgs) => { requests := [], records := .error e, output := none, logs := lgs }
  | (.ok members, lgs0) =>
    match runUsers now env members with
    | (reqs, lgs1, .error e) =>
      { requests := reqs, records := .error e, output := none, logs := lgs0 ++ lgs1 }
    | (reqs, lgs1, .ok recs) =>
      if recs.isEmpty then
        { requests := reqs, records := .ok recs, output := none
        , logs := lgs0 ++ lgs1 ++ [.warningNoMentions] }
      else
        { requests := reqs, records := .ok recs, output := some (writeCsv recs)
        , logs := lgs0 ++ lgs1 ++ [.infoSaved output_file] }

/-- A well-formed tweet carrying one token mention, for concrete runs. -/
def testTweet : TweetObj :=
  { textOpt := some "yo $BTC up", idOpt := some "t1"
  , createdAtOpt := some "2024-01-01T00:00:00Z" }

/-- A healthy environment: one member u1 with one mention-bearing tweet. -/
def testEnv : Env :=
  { membersResp := .ok { data := some [{ idOpt := some "u1" }] }
  , tweetsResp := fun u => if u = "u1" then .ok { data := some [testTweet] }
      else .ok { data := none } }

/-- An environment in which every request fails at transport level. -/
def failEnv : Env :=
  { membersResp := .requestError, tweetsResp := fun _ => .requestError }

/-- Tweet lists per user for the healthy test environment. -/
def testTweets : String → List TweetObj := fun u => if u = "u1" then [testTweet] else []

/-- A post lacking id and created_at whose text contains no token mention. -/
def brokenTweet : TweetObj :=
  { textOpt := some "hello tweet", idOpt := none, createdAtOpt := none }

/-- Environment serving `brokenTweet` for every user. -/
def envMissingId : Env :=
  { membersResp := .ok { data := some [{ idOpt := some "u1" }] }
  , tweetsResp := fun _ => .ok { data := some [brokenTweet] } }

/-- A post lacking the text field altogether. -/
def missingTextTweet : TweetObj :=
  { textOpt := none, idOpt := some "t9", createdAtOpt := some "2024-01-01T00:00:00Z" }

/-- Environment serving `missingTextTweet` for every user. -/
def envMissingText : Env :=
  { membersResp := .ok { data := some [{ idOpt := some "u1" }] }
  , tweetsResp := fun _ => .ok { data := some [missingTextTweet] } }

/-- The single record the healthy test environment produces. -/
def testRecord : MentionRecord :=
  { user_id := "u1", tweet_id := "t1", created_at := "2024-01-01T00:00:00Z"
  , token := "BTC".data, narrative := "yo $BTC up".data }

end Dexscraper

namespace Dexscraper

theorem isWordChar_of_isUpperAZ {c : Char} (h : isUpperAZ c = true) : isWordChar c = true := by
  simp [isWordChar, h]

theorem isSpaceChar_eq_false_of_isUpperAZ {c : Char} (h : isUpperAZ c = true) :
    isSpaceChar c = false := by
  cases hs : isSpaceChar c with
  | false => rfl
  | true =>
    exfalso
    simp only [isSpaceChar, Bool.or_eq_true, beq_iff_eq] at hs
    rcases hs with ((((h1 | h1) | h1) | h1) | h1) | h1 <;>
      rw [h1] at h <;> exact absurd h (by decide)

theorem upperRunLen_le (l : List Char) : upperRunLen l ≤ l.length := by
  induction l with
  | nil => simp [upperRunLen]
  | cons c cs ih =>
    simp only [upperRunLen, List.length_cons]
    split
    · omega
    · omega

theorem upperRunLen_take_all (l : List Char) : (l.take (upperRunLen l)).all isUpperAZ = true := by
  induction l with
  | nil => rfl
  | cons c cs ih =>
    simp only [upperRunLen]
    split
    · rename_i h
      simpa [List.all_cons, h] using ih
    · simp

theorem upperRunLen_eq_of (l : List Char) (r : Nat) (hlen : r ≤ l.length)
    (hall : (l.take r).all isUpperAZ = true)
    (hnext : ∀ c, l[r]? = some c → isWordChar c = false) :
    upperRunLen l = r := by
  induction l generalizing r with
  | nil =>
    simp only [List.length_nil, Nat.le_zero] at hlen
    subst hlen
    rfl
  | cons b cs ih =>
    cases r with
    | zero =>
      have hb : isWordChar b = false := hnext b (by simp)
      have hb2 : isUpperAZ b = false := by
        cases h2 : isUpperAZ b with
        | false => rfl
        | true => rw [isWordChar_of_isUpperAZ h2] at hb; exact absurd hb (by simp)
      simp [upperRunLen, hb2]
    | succ r =>
      simp only [List.take_succ_cons, List.all_cons, Bool.and_eq_true] at hall
      obtain ⟨hb, hall2⟩ := hall
      have hrec : upperRunLen cs = r := by
        refine ih r (by simpa using hlen) hall2 ?_
        intro c hc
        exact hnext c (by simpa using hc)
      simp [upperRunLen, hb, hrec]

theorem upperRun_getElem {l : List Char} {k : Nat} (hk : k < upperRunLen l) {c : Char}
    (hc : l[k]? = some c) : isUpperAZ c = true := by
  have hall := upperRunLen_take_all l
  rw [List.all_eq_true] at hall
  refine hall c (List.getElem?_mem (n := k) ?_)
  rw [List.getElem?_take_of_lt hk]
  exact hc

theorem notWordAt_iff {text : List Char} {i : Nat} :
    notWordAt text i = true ↔ ∀ c, text[i]? = some c → isWordChar c = false := by
  unfold notWordAt
  cases h : text[i]? with
  | none => simp
  | some c => simp [Bool.not_eq_true']

theorem sliceList_eq_take (text : List Char) (a r : Nat) :
    sliceList text a (a + r) = (text.drop a).take r := by
  simp [sliceList]

theorem isMatchAt_parts {text : List Char} {j r : Nat} (h : isMatchAt text j r = true) :
    3 ≤ r ∧ r ≤ 10 ∧ text[j]? = some '$' ∧ j + 1 + r ≤ text.length ∧
    upperRunLen (text.drop (j + 1)) = r ∧ notWordAt text (j + 1 + r) = true := by
  simp only [isMatchAt, Bool.and_eq_true, decide_eq_true_eq, beq_iff_eq] at h
  obtain ⟨⟨⟨⟨⟨h3, h10⟩, hd⟩, hlen⟩, hall⟩, hnw⟩ := h
  rw [show j + 1 + r = (j + 1) + r by omega, sliceList_eq_take] at hlen hall
  have hle : j + 1 + r ≤ text.length := by
    rw [List.length_take, List.length_drop] at hlen
    omega
  have hrun : upperRunLen (text.drop (j + 1)) = r := by
    refine upperRunLen_eq_of _ r (by rw [List.length_drop]; omega) hall ?_
    intro c hc
    rw [List.getElem?_drop] at hc
    rw [show j + 1 + r = (j + 1) + r by omega] at hnw
    exact notWordAt_iff.mp hnw c hc
  exact ⟨h3, h10, hd, hle, hrun, by rw [show (j + 1) + r = j + 1 + r by omega] at hnw; exact hnw⟩

theorem isMatchAt_intro {text : List Char} {i : Nat} (h : i < text.length)
    (hd : text.get ⟨i, h⟩ = '$')
    (h3 : 3 ≤ upperRunLen (text.drop (i + 1))) (h10 : upperRunLen (text.drop (i + 1)) ≤ 10)
    (hnw : notWordAt text (i + 1 + upperRunLen (text.drop (i + 1))) = true) :
    isMatchAt text i (upperRunLen (text.drop (i + 1))) = true := by
  have hrun_le := upperRunLen_le (text.drop (i + 1))
  rw [List.length_drop] at hrun_le
  simp only [isMatchAt, Bool.and_eq_true, decide_eq_true_eq, beq_iff_eq]
  refine ⟨⟨⟨⟨⟨h3, h10⟩, ?_⟩, ?_⟩, ?_⟩, hnw⟩
  · rw [List.getElem?_eq_getElem h]
    simpa [List.get_eq_getElem] using hd
  · rw [show i + 1 + upperRunLen (text.drop (i + 1)) = (i + 1) + upperRunLen (text.drop (i + 1))
        by omega, sliceList_eq_take, List.length_take, List.length_drop]
    omega
  · rw [show i + 1 + upperRunLen (text.drop (i + 1)) = (i + 1) + upperRunLen (text.drop (i + 1))
        by omega, sliceList_eq_take]
    exact upperRunLen_take_all _

theorem scanFrom_start_le (text : List Char) :
    ∀ fuel i j r, (j, r) ∈ scanFrom text fuel i → i ≤ j := by
  intro fuel
  induction fuel with
  | zero => intro i j r hmem; simp [scanFrom] at hmem
  | succ fuel ih =>
    intro i j r hmem
    rw [scanFrom] at hmem
    split at hmem
    · split at hmem
      · split at hmem
        · rcases List.mem_cons.mp hmem with heq | htail
          · rw [Prod.mk.injEq] at heq
            omega
          · have := ih _ _ _ htail
            omega
        · have := ih _ _ _ hmem
          omega
      · have := ih _ _ _ hmem
        omega
    · simp at hmem

theorem scanFrom_mem_iff (text : List Char) :
    ∀ fuel i, text.length ≤ i + fuel →
      ∀ j r, ((j, r) ∈ scanFrom text fuel i ↔ isMatchAt text j r = true ∧ i ≤ j) := by
  intro fuel
  induction fuel with
  | zero =>
    intro i hfi j r
    simp only [scanFrom, List.not_mem_nil, false_iff]
    rintro ⟨hm, hij⟩
    have := (isMatchAt_parts hm).2.2.2.1
    omega
  | succ fuel ih =>
    intro i hfi j r
    rw [scanFrom]
    split
    case isTrue h =>
      split
      case isTrue hd =>
        split
        case isTrue hcond =>
          obtain ⟨h3, h10, hnw⟩ := hcond
          constructor
          · intro hmem
            rcases List.mem_cons.mp hmem with heq | htail
            · rw [Prod.mk.injEq] at heq
              obtain ⟨hj, hr⟩ := heq
              subst hj
              subst hr
              exact ⟨isMatchAt_intro h hd h3 h10 hnw, Nat.le_refl _⟩
            · have hrec := (ih _ (by omega) j r).mp htail
              exact ⟨hrec.1, by omega⟩
          · rintro ⟨hm, hij⟩
            rcases Nat.eq_or_lt_of_le hij with heq | hlt
            · subst heq
              have hrun := (isMatchAt_parts hm).2.2.2.2.1
              rw [hrun]
              exact List.mem_cons_self _ _
            · by_cases hj2 : i + 1 + upperRunLen (text.drop (i + 1)) ≤ j
              · exact List.mem_cons_of_mem _ ((ih _ (by omega) j r).mpr ⟨hm, hj2⟩)
              · exfalso
                have hdollar := (isMatchAt_parts hm).2.2.1
                have hk : j - (i + 1) < upperRunLen (text.drop (i + 1)) := by omega
                have hup : isUpperAZ '$' = true := by
                  refine upperRun_getElem hk (c := '$') ?_
                  rw [List.getElem?_drop]
                  rw [show i + 1 + (j - (i + 1)) = j by omega]
                  exact hdollar
                exact absurd hup (by decide)
        case isFalse hcond =>
          rw [ih _ (by omega) j r]
          constructor
          · rintro ⟨hm, hij⟩
            exact ⟨hm, by omega⟩
          · rintro ⟨hm, hij⟩
            rcases Nat.eq_or_lt_of_le hij with heq | hlt
            · exfalso
              subst heq
              obtain ⟨h3, h10, _, _, hrun, hnw⟩ := isMatchAt_parts hm
              rw [hrun] at hcond
              exact hcond ⟨h3, h10, hnw⟩
            · exact ⟨hm, by omega⟩
      case isFalse hd =>
        rw [ih _ (by omega) j r]
        constructor
        · rintro ⟨hm, hij⟩
          exact ⟨hm, by omega⟩
        · rintro ⟨hm, hij⟩
          rcases Nat.eq_or_lt_of_le hij with heq | hlt
          · exfalso
            subst heq
            have hdollar := (isMatchAt_parts hm).2.2.1
            rw [List.getElem?_eq_getElem h] at hdollar
            simp only [Option.some.injEq] at hdollar
            exact hd (by simpa [List.get_eq_getElem] using hdollar)
          · exact ⟨hm, by omega⟩
    case isFalse h =>
      simp only [List.not_mem_nil, false_iff]
      rintro ⟨hm, hij⟩
      have := (isMatchAt_parts hm).2.2.2.1
      omega

theorem scanFrom_pairwise (text : List Char) :
    ∀ fuel i, List.Pairwise (fun a b : Nat × Nat => a.1 + 1 + a.2 ≤ b.1) (scanFrom text fuel i) := by
  intro fuel
  induction fuel with
  | zero => intro i; simp [scanFrom]
  | succ fuel ih =>
    intro i
    rw [scanFrom]
    split
    · split
      · split
        · refine List.Pairwise.cons ?_ (ih _)
          intro b hb
          have hble : i + 1 + upperRunLen (text.drop (i + 1)) ≤ b.1 :=
            scanFrom_start_le text fuel _ b.1 b.2 (by simpa using hb)
          simpa using hble
        · exact ih _
      · exact ih _
    · exact List.Pairwise.nil

theorem findMatches_mem_iff (text : List Char) (j r : Nat) :
    (j, r) ∈ findMatches text ↔ isMatchAt text j r = true := by
  rw [findMatches, scanFrom_mem_iff text text.length 0 (by omega) j r]
  simp

theorem findMatches_pairwise (text : List Char) :
    List.Pairwise (fun a b : Nat × Nat => a.1 + 1 + a.2 ≤ b.1) (findMatches text) :=
  scanFrom_pairwise text text.length 0

theorem take_drop_within {α : Type} (l : List α) (k m n : Nat) (h : k + m ≤ n) :
    (l.drop k).take m <:+: l.take n := by
  have h1 : (l.drop k).take m = (l.take (k + m)).drop k := by
    rw [List.take_drop]
  rw [h1]
  exact List.IsInfix.trans (List.IsSuffix.isInfix (List.drop_suffix _ _))
    (List.IsPrefix.isInfix (List.take_prefix_take_left l h))

theorem sliceList_within_sliceList (text : List Char) (a b a2 b2 : Nat)
    (h1 : a ≤ a2) (h2 : b2 ≤ b) : sliceList text a2 b2 <:+: sliceList text a b := by
  by_cases hab : b2 ≤ a2
  · have : b2 - a2 = 0 := by omega
    rw [sliceList, this, List.take_zero]
    exact List.nil_infix
  · rw [sliceList, sliceList, show text.drop a2 = (text.drop a).drop (a2 - a) by
      rw [List.drop_drop]; congr 1; omega]
    exact take_drop_within (text.drop a) (a2 - a) (b2 - a2) (b - a) (by omega)

theorem sliceList_within (text : List Char) (a b : Nat) : sliceList text a b <:+: text := by
  rw [sliceList]
  exact List.IsInfix.trans (List.IsPrefix.isInfix (List.take_prefix _ _))
    (List.IsSuffix.isInfix (List.drop_suffix _ _))

theorem dropWhile_keeps {p : Char → Bool} (t : List Char) (ht : t ≠ [])
    (hnp : ∀ c ∈ t, p c = false) :
    ∀ l, t <:+: l → t <:+: l.dropWhile p := by
  intro l
  induction l with
  | nil =>
    intro h
    simpa using h
  | cons a l ih =>
    intro h
    rw [List.dropWhile_cons]
    by_cases hpa : p a = true
    · rw [if_pos hpa]
      apply ih
      obtain ⟨u, v, huv⟩ := h
      cases u with
      | nil =>
        exfalso
        cases t with
        | nil => exact ht rfl
        | cons b t0 =>
          simp only [List.nil_append, List.cons_append, List.cons.injEq] at huv
          have hb : p b = false := hnp b (List.mem_cons_self _ _)
          rw [huv.1] at hb
          rw [hb] at hpa
          exact Bool.false_ne_true hpa
      | cons x u0 =>
        simp only [List.cons_append, List.cons.injEq] at huv
        exact ⟨u0, v, huv.2⟩
    · rw [if_neg hpa]
      exact h

theorem trimList_keeps {t l : List Char} (ht : t ≠ [])
    (hnp : ∀ c ∈ t, isSpaceChar c = false) (h : t <:+: l) : t <:+: trimList l := by
  have h1 : t <:+: l.dropWhile isSpaceChar := dropWhile_keeps t ht hnp l h
  have h2 : t.reverse <:+: (l.dropWhile isSpaceChar).reverse := List.reverse_infix.mpr h1
  have h3 : t.reverse <:+: ((l.dropWhile isSpaceChar).reverse).dropWhile isSpaceChar :=
    dropWhile_keeps t.reverse (by simpa using ht)
      (fun c hc => hnp c (List.mem_reverse.mp hc)) _ h2
  rw [trimList]
  exact List.reverse_infix.mp (by simpa using h3)

theorem trimList_within (l : List Char) : trimList l <:+: l := by
  rw [trimList]
  have h2 := List.dropWhile_suffix (l := (l.dropWhile isSpaceChar).reverse) isSpaceChar
  have h3 : ((l.dropWhile isSpaceChar).reverse.dropWhile isSpaceChar).reverse <+:
      l.dropWhile isSpaceChar := List.reverse_suffix.mp (by simpa using h2)
  exact List.IsInfix.trans (List.IsPrefix.isInfix h3)
    (List.IsSuffix.isInfix (List.dropWhile_suffix _))

/-- C1: every token returned by `extract_token_mentions` consists only of uppercase
Latin letters, has length between 3 and 10 inclusive, occurs in the text immediately
preceded by a dollar sign and not immediately followed by another word character; and
the returned list is exactly the non-overlapping matches of that pattern, in order:
a pair is scanned iff the pattern holds there (`isMatchAt`), consecutive matches do
not overlap, and the mentions are exactly those matches. -/
theorem extract_token_mentions_pattern (text : List Char) :
    (∀ j r, (j, r) ∈ findMatches text ↔ isMatchAt text j r = true) ∧
    List.Pairwise (fun a b : Nat × Nat => a.1 + 1 + a.2 ≤ b.1) (findMatches text) ∧
    extract_token_mentions text = (findMatches text).map (mkMention text) ∧
    ∀ m ∈ extract_token_mentions text, ∃ j,
      3 ≤ m.token.length ∧ m.token.length ≤ 10 ∧ m.token.all isUpperAZ = true ∧
      text[j]? = some '$' ∧ sliceList text (j + 1) (j + 1 + m.token.length) = m.token ∧
      notWordAt text (j + 1 + m.token.length) = true := by
  refine ⟨findMatches_mem_iff text, findMatches_pairwise text, rfl, ?_⟩
  intro m hm
  rw [extract_token_mentions, List.mem_map] at hm
  obtain ⟨⟨j, r⟩, hjr, hmk⟩ := hm
  have hmatch := (findMatches_mem_iff text j r).mp hjr
  obtain ⟨h3, h10, hd, hle, hrun, hnw⟩ := isMatchAt_parts hmatch
  have htok : m.token = sliceList text (j + 1) (j + 1 + r) := by
    rw [← hmk]
    rfl
  have hlen : m.token.length = r := by
    rw [htok, show j + 1 + r = (j + 1) + r by omega, sliceList_eq_take,
      List.length_take, List.length_drop]
    omega
  refine ⟨j, by omega, by omega, ?_, hd, ?_, ?_⟩
  · rw [htok, show j + 1 + r = (j + 1) + r by omega, sliceList_eq_take, ← hrun]
    exact upperRunLen_take_all _
  · rw [hlen, htok]
  · rw [hlen]
    exact hnw

/-- Witness for C1 at the text Go dollar-BTC now: the single returned mention
satisfies every clause of the pattern characterization. -/
theorem extract_token_mentions_pattern_witness :
    ∃ j, 3 ≤ (Mention.mk "BTC".data "Go $BTC now".data).token.length ∧
      (Mention.mk "BTC".data "Go $BTC now".data).token.length ≤ 10 ∧
      (Mention.mk "BTC".data "Go $BTC now".data).token.all isUpperAZ = true ∧
      ("Go $BTC now".data)[j]? = some '$' ∧
      sliceList "Go $BTC now".data (j + 1)
        (j + 1 + (Mention.mk "BTC".data "Go $BTC now".data).token.length) =
        (Mention.mk "BTC".data "Go $BTC now".data).token ∧
      notWordAt "Go $BTC now".data
        (j + 1 + (Mention.mk "BTC".data "Go $BTC now".data).token.length) = true :=
  (extract_token_mentions_pattern "Go $BTC now".data).2.2.2
    (Mention.mk "BTC".data "Go $BTC now".data) (by decide)

/-- C2 (amended): for every match, the excerpt is the slice of the original text
from 100 characters before the match start to 100 characters after the match end,
clipped to the text bounds and trimmed of leading and trailing whitespace; it is a
contiguous substring of the original text and always contains the matched token;
and the slice has length at most 211 before trimming (100 + match length + 100,
the match `$TOKEN` itself being 4 to 11 characters — not 201 as claimed). -/
theorem excerpt_of_match (text : List Char) (p : Nat × Nat) (hp : p ∈ findMatches text) :
    (mkMention text p).context =
      trimList (sliceList text (p.1 - 100) (min text.length (p.1 + 1 + p.2 + 100))) ∧
    (sliceList text (p.1 - 100) (min text.length (p.1 + 1 + p.2 + 100))).length ≤ 211 ∧
    (mkMention text p).context <:+: text ∧
    (mkMention text p).token <:+: (mkMention text p).context := by
  obtain ⟨j, r⟩ := p
  have hmatch := (findMatches_mem_iff text j r).mp hp
  obtain ⟨h3, h10, hd, hle, hrun, hnw⟩ := isMatchAt_parts hmatch
  have hlen2 : (sliceList text (j + 1) (j + 1 + r)).length = r := by
    rw [show j + 1 + r = (j + 1) + r by omega, sliceList_eq_take,
      List.length_take, List.length_drop]
    omega
  refine ⟨rfl, ?_, ?_, ?_⟩
  · rw [sliceList, List.length_take, List.length_drop]
    omega
  · exact List.IsInfix.trans (trimList_within _) (sliceList_within text _ _)
  · have htok : (mkMention text (j, r)).token = sliceList text (j + 1) (j + 1 + r) := rfl
    have hsub : sliceList text (j + 1) (j + 1 + r) <:+:
        sliceList text (j - 100) (min text.length (j + 1 + r + 100)) :=
      sliceList_within_sliceList text _ _ _ _ (by omega) (by omega)
    have hup : (sliceList text (j + 1) (j + 1 + r)).all isUpperAZ = true := by
      rw [show j + 1 + r = (j + 1) + r by omega, sliceList_eq_take, ← hrun]
      exact upperRunLen_take_all _
    rw [List.all_eq_true] at hup
    have hne : sliceList text (j + 1) (j + 1 + r) ≠ [] := by
      intro h0
      rw [h0] at hlen2
      simp only [List.length_nil] at hlen2
      omega
    rw [htok]
    exact trimList_keeps hne
      (fun c hc => isSpaceChar_eq_false_of_isUpperAZ (hup c hc)) hsub

/-- Witness for C2 at a concrete match of a short text. -/
theorem excerpt_of_match_witness :
    (mkMention " $BTC! ".data (1, 3)).context =
      trimList (sliceList " $BTC! ".data (1 - 100) (min " $BTC! ".data.length (1 + 1 + 3 + 100))) ∧
    (sliceList " $BTC! ".data (1 - 100) (min " $BTC! ".data.length (1 + 1 + 3 + 100))).length ≤ 211 ∧
    (mkMention " $BTC! ".data (1, 3)).context <:+: " $BTC! ".data ∧
    (mkMention " $BTC! ".data (1, 3)).token <:+: (mkMention " $BTC! ".data (1, 3)).context :=
  excerpt_of_match " $BTC! ".data (1, 3) (by decide)

set_option maxRecDepth 100000 in
/-- C2 counterexample: for a 204-character text with the match in the middle, the
untrimmed excerpt slice is the whole text and has length 204, which exceeds the
claimed bound of 201 (and the trimmed excerpt equals it, so even the final excerpt
is longer than 201). -/
theorem excerpt_bound_201_false :
    (100, 3) ∈ findMatches (List.replicate 100 'a' ++ "$BTC ".data ++ List.replicate 99 'a') ∧
    (sliceList (List.replicate 100 'a' ++ "$BTC ".data ++ List.replicate 99 'a') (100 - 100)
      (min (List.replicate 100 'a' ++ "$BTC ".data ++ List.replicate 99 'a').length
        (100 + 1 + 3 + 100))).length = 204 := by
  decide

/-- C7: on the text Check out dollar-BTC and dollar-ETH today, extraction returns
exactly the tokens BTC then ETH, each with excerpt equal to the whole (trimmed)
input text, the 100-character window exceeding the text on both sides. -/
theorem example_text_two_mentions :
    extract_token_mentions "Check out $BTC and $ETH today".data =
      [{ token := "BTC".data, context := "Check out $BTC and $ETH today".data },
       { token := "ETH".data, context := "Check out $BTC and $ETH today".data }] ∧
    trimList "Check out $BTC and $ETH today".data = "Check out $BTC and $ETH today".data := by
  decide

/-- C8: a text in which the pattern matches nowhere (no dollar-prefixed run of 3
to 10 uppercase letters with a trailing word boundary) yields no mentions. -/
theorem no_match_yields_empty (text : List Char)
    (h : ∀ j, j < text.length → ∀ r, r ≤ 10 → isMatchAt text j r = false) :
    extract_token_mentions text = [] := by
  have hall : ∀ j r, isMatchAt text j r = false := by
    intro j r
    by_cases hj : j < text.length
    · by_cases hr : r ≤ 10
      · exact h j hj r hr
      · cases hm : isMatchAt text j r with
        | false => rfl
        | true =>
          have := (isMatchAt_parts hm).2.1
          omega
    · cases hm : isMatchAt text j r with
      | false => rfl
      | true =>
        have := (isMatchAt_parts hm).2.2.2.1
        omega
  have hempty : findMatches text = [] := by
    cases hfm : findMatches text with
    | nil => rfl
    | cons p ps =>
      exfalso
      obtain ⟨j, r⟩ := p
      have hp : (j, r) ∈ findMatches text := by
        rw [hfm]
        exact List.mem_cons_self _ _
      have := (findMatches_mem_iff text j r).mp hp
      rw [hall j r] at this
      exact Bool.false_ne_true this
  rw [extract_token_mentions, hempty]
  rfl

/-- Witness for C8: the spec's own example, a dollar sign followed by a single
uppercase letter, yields the empty sequence. -/
theorem no_match_yields_empty_witness : extract_token_mentions "$A is too short".data = [] :=
  no_match_yields_empty _ (by decide)

/-- C9: an API response whose JSON body parses but lacks the top-level data field
is treated as zero results by both fetchers, which return an empty sequence (and
log nothing) rather than raising. -/
theorem missing_data_field_is_empty (now : Int) (env : Env) (user_id : String) (days : Nat)
    (h : env.tweetsResp user_id = .ok { data := none }) :
    get_list_members (.ok { data := none }) = (.ok [], []) ∧
    get_user_tweets now env user_id days = (mkTweetRequest now user_id days, .ok [], []) := by
  constructor
  · rfl
  · rw [get_user_tweets, h]
    rfl

/-- Witness for C9 on a concrete environment and user. -/
theorem missing_data_field_is_empty_witness :
    get_list_members (.ok { data := none }) = (.ok [], []) ∧
    get_user_tweets 0 testEnv "nobody" 7 = (mkTweetRequest 0 "nobody" 7, .ok [], []) :=
  missing_data_field_is_empty 0 testEnv "nobody" 7 rfl

/-- C4: a transport or non-success-HTTP failure in the list-members call or the
user-posts call is caught at the offending call, an error-level message is logged,
and the function returns an empty sequence instead of propagating; a Member Lister
failure yields a run with no members processed and no output, ending normally with
a warning instead of a crash. -/
theorem request_failure_yields_empty (now : Int) (env : Env) (out : String)
    (hm : env.membersResp = .requestError) :
    get_list_members .requestError = (.ok [], [.errorFetchingListMembers]) ∧
    LogMsg.level .errorFetchingListMembers = .error ∧
    (∀ u d, env.tweetsResp u = .requestError →
      get_user_tweets now env u d = (mkTweetRequest now u d, .ok [], [.errorFetchingTweets u]) ∧
      LogMsg.level (.errorFetchingTweets u) = .error) ∧
    scrape_list_tokens now env out =
      { requests := [], records := .ok [], output := none
      , logs := [.errorFetchingListMembers, .warningNoMentions] } := by
  refine ⟨rfl, rfl, ?_, ?_⟩
  · intro u d h
    rw [get_user_tweets, h]
    exact ⟨rfl, rfl⟩
  · rw [scrape_list_tokens, hm]
    rfl

/-- Witness for C4 on a concrete all-failing environment. -/
theorem request_failure_yields_empty_witness :
    get_list_members .requestError = (.ok [], [.errorFetchingListMembers]) ∧
    LogMsg.level .errorFetchingListMembers = .error ∧
    (∀ u d, failEnv.tweetsResp u = .requestError →
      get_user_tweets 0 failEnv u d = (mkTweetRequest 0 u d, .ok [], [.errorFetchingTweets u]) ∧
      LogMsg.level (.errorFetchingTweets u) = .error) ∧
    scrape_list_tokens 0 failEnv "token_mentions.csv" =
      { requests := [], records := .ok [], output := none
      , logs := [.errorFetchingListMembers, .warningNoMentions] } :=
  request_failure_yields_empty 0 failEnv "token_mentions.csv" rfl

theorem mapM_ok_of_forall {α β : Type} (f : α → Except PyError β) (g : α → β)
    (l : List α) (h : ∀ a ∈ l, f a = .ok (g a)) : l.mapM f = .ok (l.map g) := by
  induction l with
  | nil => rfl
  | cons a as ih =>
    rw [List.mapM_cons, h a (List.mem_cons_self _ _),
      ih fun b hb => h b (List.mem_cons_of_mem _ hb)]
    rfl

theorem mapM_ok_forall {α β : Type} {f : α → Except PyError β} {l : List α} {v : List β}
    (h : l.mapM f = .ok v) : ∀ a ∈ l, ∃ b, f a = .ok b := by
  induction l generalizing v with
  | nil => simp
  | cons a as ih =>
    rw [List.mapM_cons] at h
    cases hfa : f a with
    | error e =>
      rw [hfa] at h
      exact absurd h (by intro hh; exact Except.noConfusion hh)
    | ok b =>
      rw [hfa] at h
      cases hbs : as.mapM f with
      | error e =>
        rw [hbs] at h
        exact absurd h (by intro hh; exact Except.noConfusion hh)
      | ok bs =>
        intro x hx
        rcases List.mem_cons.mp hx with rfl | hx2
        · exact ⟨b, hfa⟩
        · exact ih hbs x hx2

theorem mapM_error_of_mem {α β : Type} {f : α → Except PyError β} {l : List α} {a : α}
    (ha : a ∈ l) (he : ∀ b, f a ≠ .ok b) : ∃ e, l.mapM f = .error e := by
  cases h : l.mapM f with
  | ok v =>
    obtain ⟨b, hb⟩ := mapM_ok_forall h a ha
    exact absurd hb (he b)
  | error e => exact ⟨e, rfl⟩

theorem mapM_getMemberId_error : ∀ ms : List MemberObj, (∃ m ∈ ms, m.idOpt = none) →
    ms.mapM getMemberId = .error (.keyError "id") := by
  intro ms
  induction ms with
  | nil =>
    rintro ⟨m, hm, _⟩
    simp at hm
  | cons a as ih =>
    rintro ⟨m, hm, hid⟩
    rw [List.mapM_cons]
    cases ha : a.idOpt with
    | none =>
      rw [getMemberId, ha]
      rfl
    | some i =>
      have hm2 : m ∈ as := by
        rcases List.mem_cons.mp hm with rfl | h2
        · rw [ha] at hid
          exact absurd hid (by simp)
        · exact h2
      rw [getMemberId, ha, ih ⟨m, hm2, hid⟩]
      rfl

theorem mapM_getMemberId_map (members : List String) :
    (members.map fun i => ({ idOpt := some i } : MemberObj)).mapM getMemberId =
      .ok members := by
  induction members with
  | nil => rfl
  | cons i is ih =>
    rw [List.map_cons, List.mapM_cons, ih]
    rfl

theorem recordsOfTweet_ok (u : String) (t : TweetObj) (txt tid ca : String)
    (h1 : t.textOpt = some txt) (h2 : t.idOpt = some tid) (h3 : t.createdAtOpt = some ca) :
    recordsOfTweet u t = .ok ((extract_token_mentions txt.data).map fun m =>
      { user_id := u, tweet_id := tid, created_at := ca
      , token := m.token, narrative := m.context }) := by
  rw [recordsOfTweet, h1]
  refine mapM_ok_of_forall _ _ _ ?_
  intro m _
  rw [h2, h3]

theorem recordsOfTweet_missing_text (u : String) (t : TweetObj) (h : t.textOpt = none) :
    recordsOfTweet u t = .error (.keyError "text") := by
  rw [recordsOfTweet, h]

theorem recordsOfTweet_missing_id (u : String) (t : TweetObj) (txt : String)
    (h1 : t.textOpt = some txt) (hne : extract_token_mentions txt.data ≠ [])
    (h2 : t.idOpt = none) : recordsOfTweet u t = .error (.keyError "id") := by
  cases hml : extract_token_mentions txt.data with
  | nil => exact absurd hml hne
  | cons m ms =>
    simp only [recordsOfTweet, h1, hml, List.mapM_cons, h2]
    rfl

theorem recordsOfTweet_missing_created (u : String) (t : TweetObj) (txt tid : String)
    (h1 : t.textOpt = some txt) (hne : extract_token_mentions txt.data ≠ [])
    (h2 : t.idOpt = some tid) (h3 : t.createdAtOpt = none) :
    recordsOfTweet u t = .error (.keyError "created_at") := by
  cases hml : extract_token_mentions txt.data with
  | nil => exact absurd hml hne
  | cons m ms =>
    simp only [recordsOfTweet, h1, hml, List.mapM_cons, h2, h3]
    rfl

theorem get_user_tweets_ok (now : Int) (env : Env) (u : String) (d : Nat)
    (ts : List TweetObj) (h : env.tweetsResp u = .ok { data := some ts })
    (hf : ∀ t ∈ ts, (∃ s, t.textOpt = some s) ∧ (∃ s, t.idOpt = some s) ∧
      ∃ s, t.createdAtOpt = some s) :
    get_user_tweets now env u d = (mkTweetRequest now u d,
      .ok ((ts.map fun t =>
        (extract_token_mentions ((t.textOpt.getD "").data)).map fun m =>
          { user_id := u, tweet_id := t.idOpt.getD "", created_at := t.createdAtOpt.getD ""
          , token := m.token, narrative := m.context }).flatten), []) := by
  rw [get_user_tweets, h]
  have hmm : ts.mapM (recordsOfTweet u) = .ok (ts.map fun t =>
      (extract_token_mentions ((t.textOpt.getD "").data)).map fun m =>
        { user_id := u, tweet_id := t.idOpt.getD "", created_at := t.createdAtOpt.getD ""
        , token := m.token, narrative := m.context }) := by
    refine mapM_ok_of_forall _ _ _ ?_
    intro t htmem
    obtain ⟨⟨txt, h1⟩, ⟨tid, h2⟩, ⟨ca, h3⟩⟩ := hf t htmem
    rw [recordsOfTweet_ok u t txt tid ca h1 h2 h3, h1, h2, h3]
    rfl
  show (mkTweetRequest now u d,
      Except.map List.flatten (((some ts).getD []).mapM (recordsOfTweet u)), ([] : List LogMsg)) = _
  rw [Option.getD_some, hmm]
  rfl

theorem runUsers_ok (now : Int) (env : Env) (perUser : String → List MentionRecord) :
    ∀ members : List String,
      (∀ u ∈ members, get_user_tweets now env u 7 =
        (mkTweetRequest now u 7, .ok (perUser u), [])) →
      runUsers now env members =
        (members.map fun u => mkTweetRequest now u 7,
         members.map LogMsg.infoScrapingUser,
         .ok (members.map perUser).flatten) := by
  intro members
  induction members with
  | nil => intro _; rfl
  | cons u us ih =>
    intro h
    have hu := h u (List.mem_cons_self _ _)
    have hus := ih fun v hv => h v (List.mem_cons_of_mem _ hv)
    rw [runUsers, hu, hus]
    rfl

/-- C3: when every response is present and well-formed, the accumulator holds
exactly one record per mention found in each post's text, each carrying the account
identifier, post identifier, creation timestamp, token and excerpt; posts with no
mentions contribute nothing; and the records appear in member-list order, within a
member in post order, and within a post in left-to-right match order (the nested
flatten below). -/
theorem records_one_per_mention_in_order (now : Int) (env : Env) (out : String)
    (members : List String) (tweets : String → List TweetObj)
    (hm : env.membersResp = .ok { data := some (members.map fun i => { idOpt := some i }) })
    (ht : ∀ u ∈ members, env.tweetsResp u = .ok { data := some (tweets u) })
    (hf : ∀ u ∈ members, ∀ t ∈ tweets u, (∃ s, t.textOpt = some s) ∧
      (∃ s, t.idOpt = some s) ∧ ∃ s, t.createdAtOpt = some s) :
    (scrape_list_tokens now env out).records = .ok
      (members.map fun u =>
        ((tweets u).map fun t =>
          (extract_token_mentions ((t.textOpt.getD "").data)).map fun m =>
            { user_id := u, tweet_id := t.idOpt.getD "", created_at := t.createdAtOpt.getD ""
            , token := m.token, narrative := m.context }).flatten).flatten := by
  have hglm : get_list_members env.membersResp = (.ok members, []) := by
    rw [hm, get_list_members]
    show ((members.map fun i => ({ idOpt := some i } : MemberObj)).mapM getMemberId,
      ([] : List LogMsg)) = _
    rw [mapM_getMemberId_map]
  have hrun := runUsers_ok now env (fun u =>
      ((tweets u).map fun t =>
        (extract_token_mentions ((t.textOpt.getD "").data)).map fun m =>
          { user_id := u, tweet_id := t.idOpt.getD "", created_at := t.createdAtOpt.getD ""
          , token := m.token, narrative := m.context }).flatten) members
    (fun u hu => get_user_tweets_ok now env u 7 (tweets u) (ht u hu) (hf u hu))
  simp only [scrape_list_tokens, hglm, hrun]
  split <;> rfl

/-- Witness for C3 on the healthy one-member, one-tweet environment. -/
theorem records_one_per_mention_in_order_witness :
    (scrape_list_tokens 0 testEnv "token_mentions.csv").records = .ok
      ((["u1"].map fun u =>
        ((testTweets u).map fun t =>
          (extract_token_mentions ((t.textOpt.getD "").data)).map fun m =>
            { user_id := u, tweet_id := t.idOpt.getD "", created_at := t.createdAtOpt.getD ""
            , token := m.token, narrative := m.context }).flatten).flatten) := by
  refine records_one_per_mention_in_order 0 testEnv "token_mentions.csv" ["u1"] testTweets
    rfl ?_ ?_
  · intro u hu
    rw [List.mem_singleton] at hu
    subst hu
    rfl
  · intro u hu t ht2
    rw [List.mem_singleton] at hu
    subst hu
    rw [show testTweets "u1" = [testTweet] from rfl, List.mem_singleton] at ht2
    subst ht2
    exact ⟨⟨_, rfl⟩, ⟨_, rfl⟩, ⟨_, rfl⟩⟩

/-- C10 counterexample: a post lacking both id and created_at whose text contains
no mention does not raise a KeyError — the fields are never read, and
get_user_tweets returns the empty list, contradicting the claim that any post
lacking id or created_at makes the function raise. -/
theorem missing_id_no_mention_no_raise :
    brokenTweet.idOpt = none ∧ brokenTweet.createdAtOpt = none ∧
    extract_token_mentions "hello tweet".data = [] ∧
    get_user_tweets 0 envMissingId "u1" 7 = (mkTweetRequest 0 "u1" 7, .ok [], []) :=
  ⟨rfl, rfl, by decide, rfl⟩

/-- C10 (amended): the exception handling is partial — a member object lacking id
always makes get_list_members end in an uncaught KeyError (no log, no empty-list
return); a post lacking text always makes get_user_tweets end in an uncaught
KeyError; a post lacking id or created_at does so exactly when its text contains at
least one mention (those keys are only read while building records), and nothing is
logged on such an abort. -/
theorem missing_fields_raise
    (ms : List MemberObj) (m : MemberObj) (hm : m ∈ ms) (hid : m.idOpt = none)
    (now : Int) (env : Env) (u : String) (d : Nat) (body : TweetsBody)
    (henv : env.tweetsResp u = .ok body) (t : TweetObj) (htmem : t ∈ body.data.getD [])
    (hbad : t.textOpt = none ∨ ∃ txt, t.textOpt = some txt ∧
      extract_token_mentions txt.data ≠ [] ∧ (t.idOpt = none ∨ t.createdAtOpt = none)) :
    get_list_members (.ok { data := some ms }) = (.error (.keyError "id"), []) ∧
    ∃ k, (get_user_tweets now env u d).2.1 = .error (.keyError k) ∧
      (get_user_tweets now env u d).2.2 = [] := by
  constructor
  · rw [get_list_members]
    show (ms.mapM getMemberId, ([] : List LogMsg)) = _
    rw [mapM_getMemberId_error ms ⟨m, hm, hid⟩]
  · have herr : ∃ e, recordsOfTweet u t = .error e := by
      rcases hbad with hnone | ⟨txt, htxt, hne, hidn | hcan⟩
      · exact ⟨_, recordsOfTweet_missing_text u t hnone⟩
      · exact ⟨_, recordsOfTweet_missing_id u t txt htxt hne hidn⟩
      · cases hia : t.idOpt with
        | none => exact ⟨_, recordsOfTweet_missing_id u t txt htxt hne hia⟩
        | some tid => exact ⟨_, recordsOfTweet_missing_created u t txt tid htxt hne hia hcan⟩
    obtain ⟨e, he⟩ := herr
    obtain ⟨e2, he2⟩ := mapM_error_of_mem htmem
      (f := recordsOfTweet u) (fun b hb => by rw [he] at hb; exact Except.noConfusion hb)
    cases e2 with
    | keyError k =>
      refine ⟨k, ?_, ?_⟩
      · rw [get_user_tweets, henv]
        show Except.map List.flatten ((body.data.getD []).mapM (recordsOfTweet u)) = _
        rw [he2]
        rfl
      · rw [get_user_tweets, henv]

/-- Witness for C10 (amended): a member list whose only member lacks id, and an
environment whose only post lacks text. -/
theorem missing_fields_raise_witness :
    get_list_members (.ok { data := some [{ idOpt := none }] }) =
      (.error (.keyError "id"), []) ∧
    ∃ k, (get_user_tweets 0 envMissingText "u1" 7).2.1 = .error (.keyError k) ∧
      (get_user_tweets 0 envMissingText "u1" 7).2.2 = [] :=
  missing_fields_raise [{ idOpt := none }] { idOpt := none } (List.mem_cons_self _ _) rfl
    0 envMissingText "u1" 7 { data := some [missingTextTweet] } rfl
    missingTextTweet (by decide) (Or.inl rfl)

/-- C5: when a run ends normally with a non-empty accumulator, the coordinator
writes the output file — the complete file content, mode w truncating any previous
content — with a header row whose columns are exactly the key order of the first
record and data rows of matching field count; when the accumulator is empty, no
write occurs and a warning is logged. -/
theorem csv_write_spec (now : Int) (env : Env) (out : String)
    (recs : List MentionRecord) (h : (scrape_list_tokens now env out).records = .ok recs) :
    (recs = [] → (scrape_list_tokens now env out).output = none ∧
      LogMsg.warningNoMentions ∈ (scrape_list_tokens now env out).logs ∧
      LogMsg.level .warningNoMentions = .warning) ∧
    ∀ r0 rest, recs = r0 :: rest →
      (scrape_list_tokens now env out).output = some (writeCsv recs) ∧
      writeCsv recs = csvRow ((keysOf r0).map String.data) ++
        (recs.map fun r => csvRow (recordFields r)).flatten ∧
      ∀ r ∈ recs, (recordFields r).length = (keysOf r0).length := by
  rcases hglm : get_list_members env.membersResp with ⟨membersE, lgs0⟩
  cases membersE with
  | error e =>
    rw [scrape_list_tokens, hglm] at h
    exact absurd h (by intro hh; exact Except.noConfusion hh)
  | ok members =>
    rcases hru : runUsers now env members with ⟨reqs, lgs1, recsE⟩
    cases recsE with
    | error e =>
      simp only [scrape_list_tokens, hglm, hru] at h
      exact absurd h (by intro hh; exact Except.noConfusion hh)
    | ok recs2 =>
      simp only [scrape_list_tokens, hglm, hru] at h ⊢
      by_cases hemp : recs2.isEmpty
      · rw [if_pos hemp] at h ⊢
        have hrecs : recs2 = recs := by
          have h2 : Except.ok (ε := PyError) recs2 = .ok recs := h
          exact Except.ok.inj h2
        rw [List.isEmpty_iff] at hemp
        constructor
        · intro _
          refine ⟨rfl, ?_, rfl⟩
          simp
        · intro r0 rest h0
          rw [← hrecs, hemp] at h0
          exact absurd h0 (by simp)
      · rw [if_neg hemp] at h ⊢
        have hrecs : recs2 = recs := by
          have h2 : Except.ok (ε := PyError) recs2 = .ok recs := h
          exact Except.ok.inj h2
        subst hrecs
        constructor
        · intro h0
          rw [h0] at hemp
          exact absurd rfl hemp
        · intro r0 rest h0
          refine ⟨rfl, ?_, ?_⟩
          · rw [h0, writeCsv]
          · intro r _
            rfl

/-- Witness for C5 on the healthy test environment producing one record. -/
theorem csv_write_spec_witness :
    ([testRecord] = [] → (scrape_list_tokens 0 testEnv "token_mentions.csv").output = none ∧
      LogMsg.warningNoMentions ∈ (scrape_list_tokens 0 testEnv "token_mentions.csv").logs ∧
      LogMsg.level .warningNoMentions = .warning) ∧
    ∀ r0 rest, [testRecord] = r0 :: rest →
      (scrape_list_tokens 0 testEnv "token_mentions.csv").output =
        some (writeCsv [testRecord]) ∧
      writeCsv [testRecord] = csvRow ((keysOf r0).map String.data) ++
        ([testRecord].map fun r => csvRow (recordFields r)).flatten ∧
      ∀ r ∈ [testRecord], (recordFields r).length = (keysOf r0).length :=
  csv_write_spec 0 testEnv "token_mentions.csv" [testRecord] rfl

theorem get_user_tweets_now_independent (now1 now2 : Int) (env : Env) (u : String)
    (d : Nat) : (get_user_tweets now1 env u d).2 = (get_user_tweets now2 env u d).2 := by
  rw [get_user_tweets, get_user_tweets]
  cases env.tweetsResp u <;> rfl

theorem runUsers_now_independent (now1 now2 : Int) (env : Env) :
    ∀ members : List String, (runUsers now1 env members).2 = (runUsers now2 env members).2 := by
  intro members
  induction members with
  | nil => rfl
  | cons u us ih =>
    have hind := get_user_tweets_now_independent now1 now2 env u 7
    rcases h1 : get_user_tweets now1 env u 7 with ⟨req1, res1, lg1⟩
    rcases h2 : get_user_tweets now2 env u 7 with ⟨req2, res2, lg2⟩
    rw [h1, h2] at hind
    injection hind with hres hlg
    subst hres
    subst hlg
    rw [runUsers, runUsers, h1, h2]
    cases res1 with
    | error e => rfl
    | ok recs =>
      rcases hru1 : runUsers now1 env us with ⟨reqs1, lgs1, rest1⟩
      rcases hru2 : runUsers now2 env us with ⟨reqs2, lgs2, rest2⟩
      have hih := ih
      rw [hru1, hru2] at hih
      injection hih with ha hb
      subst ha
      subst hb
      rfl

/-- C6: `extract_token_mentions` is a pure, deterministic function of its input
text, and the pipeline's accumulated records, output-file bytes and log messages
depend only on the upstream responses — two runs at different wall-clock times over
identical responses produce byte-identical output content (only the issued
requests' start_time differs; no run timestamp reaches the records). -/
theorem run_output_independent_of_clock (now1 now2 : Int) (env : Env) (out : String) :
    (∀ text : List Char, extract_token_mentions text = extract_token_mentions text) ∧
    (scrape_list_tokens now1 env out).records = (scrape_list_tokens now2 env out).records ∧
    (scrape_list_tokens now1 env out).output = (scrape_list_tokens now2 env out).output ∧
    (scrape_list_tokens now1 env out).logs = (scrape_list_tokens now2 env out).logs := by
  refine ⟨fun _ => rfl, ?_⟩
  rcases hg : get_list_members env.membersResp with ⟨membersE, lgs0⟩
  cases membersE with
  | error e =>
    simp only [scrape_list_tokens, hg]
    exact ⟨by trivial, by trivial, by trivial⟩
  | ok members =>
    have h := runUsers_now_independent now1 now2 env members
    rcases hr1 : runUsers now1 env members with ⟨reqs1, lgs1, rest1⟩
    rcases hr2 : runUsers now2 env members with ⟨reqs2, lgs2, rest2⟩
    rw [hr1, hr2] at h
    injection h with ha hb
    subst ha
    subst hb
    cases rest1 with
    | error e =>
      simp only [scrape_list_tokens, hg, hr1, hr2]
      exact ⟨by trivial, by trivial, by trivial⟩
    | ok recs =>
      simp only [scrape_list_tokens, hg, hr1, hr2]
      by_cases hemp : recs.isEmpty
      · rw [if_pos hemp, if_pos hemp]
        exact ⟨by trivial, by trivial, by trivial⟩
      · rw [if_neg hemp, if_neg hemp]
        exact ⟨by trivial, by trivial, by trivial⟩

end Dexscraper
